import Mathlib

/-
Verification of the terminal layer of the ewig editor (src/ewig/tui.cpp):
the line renderer with tab expansion, the selection compositor, the
viewport clamping, the cursor-visibility computation, the mode-line dirty
mark, and the key-sequence dispatcher.  Machine integers of the source
(`index`, `int`) are modelled as `Int`; lines as `List Char`.
-/

namespace Ewig

/-- Modelled from the spec: the fixed tab width (the `tab_width` constant of
the headers, not under src/); the spec and its examples use 8. -/
def tab_width : Int := 8

/-- A document or screen position, `coord {row, col}` of the source. -/
structure Coord where
  row : Int
  col : Int
deriving DecidableEq

/-- Loop body of `display_line_fill` (tui.cpp lines 88-103): walks the
remaining characters of the line carrying the current expanded column
`cur_col` and the output accumulated so far in `str`.  `Int.tmod` is C++
truncating `%`; `List.replicate (..).toNat` is `std::fill_n`, which does
nothing for a non-positive count. -/
def displayLineFillAux (first_col num_col : Int) :
    List Char → Int → List Char → List Char
  | [], _, str => str
  | c :: cs, cur_col, str =>
    if num_col = (str.length : Int) then str
    else if c = '\t' then
      let next_col := cur_col + tab_width - Int.tmod cur_col tab_width
      let to_fill := min next_col (first_col + num_col) - max cur_col first_col
      displayLineFillAux first_col num_col cs next_col
        (str ++ List.replicate to_fill.toNat ' ')
    else if cur_col ≥ first_col then
      displayLineFillAux first_col num_col cs (cur_col + 1) (str ++ [c])
    else
      displayLineFillAux first_col num_col cs (cur_col + 1) str

/-- The display contents of line `ln` between display columns `first_col`
and `first_col + num_col` (`display_line_fill`, tui.cpp lines 84-104).
The source appends to a caller-supplied string; here the accumulator
starts empty and the result is the appended text. -/
def display_line_fill (ln : List Char) (first_col num_col : Int) : List Char :=
  displayLineFillAux first_col num_col ln 0 []

example : display_line_fill ['a', '\t', 'b'] 0 10 =
    'a' :: List.replicate 7 ' ' ++ ['b'] := by decide

example : display_line_fill ['a', 'b', 'c'] 0 2 = ['a', 'b'] := by decide

example : display_line_fill ['a', 'b', 'c'] 1 5 = ['b', 'c'] := by decide

/-- One raw input unit: the ncurses status returned by `get_wch` and the
key code, the `{res, key}` pairs pushed on `seq_` in `handle_key`. -/
structure KeyEvent where
  res : Int
  key : Char
deriving DecidableEq

/-- Modelled from the spec: the ncurses `OK` status (a plain character was
read). -/
def statusOK : Int := 0

/-- Modelled from the spec: the ncurses status marking a named special key
such as arrow or page keys. -/
def statusKeyCode : Int := 256

/-- Modelled from the spec: a special-key event (arrow, page, home, ...),
carrying a named key code with the special-key status. -/
def specialKey (code : Nat) : KeyEvent := ⟨statusKeyCode, Char.ofNat code⟩

/-- Modelled from the spec: `key::ctrl(c)`, the control character of `c`. -/
def ctrlKey (c : Char) : KeyEvent := ⟨statusOK, Char.ofNat (c.toNat % 32)⟩

/-- Modelled from the spec: `key::alt(c)`, an escape event followed by the
plain character, forming a two-key chord. -/
def altSeq (c : Char) : List KeyEvent := [⟨statusOK, Char.ofNat 27⟩, ⟨statusOK, c⟩]

/-- A key binding table as a list of (chord, command-name) pairs, the
arguments of `make_key_map`. -/
abbrev KeyMap := List (List KeyEvent × String)

/-- The `key_map_emacs` table of tui.cpp lines 49-71.  The key-code values
of the chord constructors are modelled from the spec (the key constants
live in headers not under src/); the entries themselves are the source's. -/
def key_map_emacs : KeyMap :=
  [ ([specialKey 259], "move-up"),
    ([specialKey 258], "move-down"),
    ([specialKey 260], "move-left"),
    ([specialKey 261], "move-right"),
    ([specialKey 338], "page-down"),
    ([specialKey 339], "page-up"),
    ([specialKey 263], "delete-char"),
    ([specialKey 330], "delete-char-right"),
    ([specialKey 262], "move-beginning-of-line"),
    ([ctrlKey 'A'], "move-beginning-of-line"),
    ([specialKey 360], "move-end-of-line"),
    ([ctrlKey 'E'], "move-end-of-line"),
    ([ctrlKey 'I'], "insert-tab"),
    ([ctrlKey 'J'], "new-line"),
    ([ctrlKey 'K'], "kill-line"),
    ([ctrlKey 'W'], "cut"),
    ([ctrlKey 'Y'], "paste"),
    ([ctrlKey '@'], "start-selection"),
    ([ctrlKey 'X', ctrlKey 'C'], "quit"),
    (altSeq 'w', "copy") ]

/-- Modelled from the spec: the lookup through the map `make_key_map`
builds (keys.cpp is not under src/).  A sequence equal to a bound chord
finds that chord's name (last binding wins); a strict non-empty prefix of
some bound chord finds the empty string (the "pending" marker entries the
table construction inserts); anything else is absent. -/
def lookupChord (bindings : KeyMap) (s : List KeyEvent) : Option String :=
  match (bindings.filter fun b => decide (b.1 = s)).getLast? with
  | some b => some b.2
  | none =>
    if bindings.any fun b => decide (s ≠ [] ∧ s <+: b.1 ∧ s ≠ b.1) then
      some ""
    else
      none

/-- What one `handle_key` call does to the application state, abstracted
from the external evaluators it invokes: run a bound command, keep the
state while a chord is pending, insert a literal character, or report an
unbound key sequence. -/
inductive KeyAction where
  | command (cmd : String)
  | keepState
  | insertChar (c : Char)
  | unboundMessage
deriving DecidableEq

/-- Modelled from the spec: `std::iscntrl` on the ASCII range, true on
control codes 0-31 and 127. -/
def iscntrl (c : Char) : Bool := c.toNat < 32 || c.toNat == 127

/-- The dispatcher step `key_handler::handle_key` (tui.cpp lines 225-246):
push the event on the pending sequence, look the sequence up, and either
run the bound command (clearing the sequence), keep accumulating on a
pending prefix, insert a single plain printable character, or report an
unbound key sequence (clearing the sequence). -/
def handle_key (bindings : KeyMap) (seq : List KeyEvent)
    (res : Int) (key : Char) : List KeyEvent × KeyAction :=
  let seq1 := seq ++ [⟨res, key⟩]
  match lookupChord bindings seq1 with
  | some cmd =>
    if cmd ≠ "" then ([], KeyAction.command cmd) else (seq1, KeyAction.keepState)
  | none =>
    let is_single_char := seq1.length = 1
    if is_single_char ∧ res = statusOK ∧ iscntrl key = false then
      ([], KeyAction.insertChar key)
    else
      ([], KeyAction.unboundMessage)

/-- Feeds a list of key events one at a time through `handle_key`,
returning the final pending sequence and the actions emitted per event. -/
def feedKeys (bindings : KeyMap) :
    List KeyEvent → List KeyEvent → List KeyEvent × List KeyAction
  | seq, [] => (seq, [])
  | seq, e :: es =>
    let r := handle_key bindings seq e.res e.key
    let rest := feedKeys bindings r.1 es
    (rest.1, r.2 :: rest.2)

/-- The file buffer fields this layer reads: current content, last-loaded
content, file name, cursor, scroll and selection mark. -/
structure FileBuffer where
  content : List (List Char)
  file_content : List (List Char)
  file_name : String
  cursor : Coord
  scroll : Coord
  selection_start : Option Coord
deriving DecidableEq

/-- The application state: the buffer plus the message log (message
timestamps of the source are irrelevant here and omitted). -/
structure AppState where
  buffer : FileBuffer
  messages : List String
deriving DecidableEq

/-- Modelled from the spec: `append_notice` / `put_message` (buffer.cpp is
not under src/), purely additive to the notice log. -/
def put_message (st : AppState) (text : String) : AppState :=
  { st with messages := st.messages ++ [text] }

/-- Modelled from the spec: the key's printable name (ncurses `key_name`),
for a plain character just that character. -/
def key_name (c : Char) : String := String.singleton c

/-- Interpretation of a `KeyAction` against the application state,
mirroring the calls `handle_key` makes (tui.cpp lines 230-244): the
external `eval_command` and `eval_insert_char` are parameters; the message
the source attaches before inserting a character, and the unbound-sequence
notice, are explicit. -/
def applyAction (evalCommand : AppState → String → Option AppState)
    (evalInsertChar : AppState → Char → Option AppState)
    (st : AppState) : KeyAction → Option AppState
  | KeyAction.command cmd => evalCommand st cmd
  | KeyAction.keepState => some st
  | KeyAction.insertChar c =>
    evalInsertChar (put_message st ("adding character: " ++ key_name c)) c
  | KeyAction.unboundMessage => some (put_message st "unbound key sequence")

/-- A run of cells without highlight, one `(character, highlighted)` pair
per screen cell. -/
def plainCells (s : List Char) : List (Char × Bool) :=
  s.map fun c => (c, false)

/-- A run of cells drawn with the selection color on. -/
def hlCells (s : List Char) : List (Char × Bool) :=
  s.map fun c => (c, true)

/-- The selection compositor for one screen row (the body of the
`immer::for_each` lambda in `draw_text`, tui.cpp lines 126-160): given the
translated selection endpoints, the row index, the rendered line and the
viewport width, produces the row's cells with their highlight flags.
`hline(' ', size.col)` from column `str.length` fills to the right margin,
hence the `width.toNat - str.length` space cells. -/
def drawRowCells : Bool → Coord → Coord → Int → List Char → Int →
    List (Char × Bool)
  | false, _, _, _, str, _ => plainCells str
  | true, starts, ends, row, str, width =>
    if starts.row = ends.row ∧ starts.row = row then
      plainCells (str.take starts.col.toNat)
        ++ hlCells ((str.drop starts.col.toNat).take (ends.col - starts.col).toNat)
        ++ plainCells (str.drop ends.col.toNat)
    else if starts.row = row then
      plainCells (str.take starts.col.toNat)
        ++ hlCells (str.drop starts.col.toNat)
        ++ hlCells (List.replicate (width.toNat - str.length) ' ')
    else if ends.row = row then
      hlCells (str.take ends.col.toNat)
        ++ plainCells (str.drop ends.col.toNat)
    else if starts.row < row ∧ ends.row > row then
      hlCells str ++ hlCells (List.replicate (width.toNat - str.length) ' ')
    else
      plainCells str

/-- The range of document lines `draw_text` iterates over (tui.cpp lines
112-116): iterators `begin + min(scroll.row, size)` up to
`begin + min(size.row + scroll.row, size)`. -/
def draw_text_lines (content : List (List Char)) (scrollRow sizeRow : Int) :
    List (List Char) :=
  let n : Int := content.length
  let first := min scrollRow n
  let last := min (sizeRow + scrollRow) n
  (content.drop first.toNat).take (last - first).toNat

/-- The cursor-visibility computation of `draw_text_cursor` (tui.cpp lines
188-191), applied to the expanded display cursor (the external
`actual_display_cursor`). -/
def draw_text_cursor_visible (cursor scroll window_size : Coord) : Bool :=
  decide (cursor.col ≥ scroll.col) && decide (cursor.row ≥ scroll.row) &&
  decide (cursor.col < scroll.col + window_size.col) &&
  decide (cursor.row < scroll.row + window_size.row)

/-- The dirty indicator of `draw_mode_line` (tui.cpp line 166): the clean
marker when the current content equals the last-loaded content, the
modified marker otherwise. -/
def dirty_mark (buffer : FileBuffer) : String :=
  if buffer.content = buffer.file_content then "--" else "**"

lemma handle_key_single_printable (bindings : KeyMap) (res : Int) (key : Char)
    (hlook : lookupChord bindings [⟨res, key⟩] = none)
    (hres : res = statusOK) (hkey : iscntrl key = false) :
    handle_key bindings [] res key = ([], KeyAction.insertChar key) := by
  simp only [handle_key, List.nil_append, hlook]
  simp [hres, hkey]

/-- C1: the renderer expands a tab to the next multiple of the tab width 8
relative to the current expanded column, emits as spaces exactly the cells
of that expansion span lying within the visible window of columns
`[f, f+w)`, and advances the current column to the tab stop regardless of
how much was visible; concretely, rendering the line a-tab-b from column 0
over width 10 yields a, then 7 spaces, then b. -/
theorem tab_expansion :
    (∀ (cs : List Char) (f w cur : Int) (str : List Char),
        0 ≤ f → 0 ≤ w → 0 ≤ cur → (str.length : Int) ≠ w →
        ∃ n k, displayLineFillAux f w ('\t' :: cs) cur str =
            displayLineFillAux f w cs n (str ++ List.replicate k ' ') ∧
          n % 8 = 0 ∧ cur < n ∧ n ≤ cur + 8 ∧
          k = ((Finset.Ico cur n) ∩ (Finset.Ico f (f + w))).card) ∧
    display_line_fill ['a', '\t', 'b'] 0 10 =
      'a' :: List.replicate 7 ' ' ++ ['b'] := by
  constructor
  · intro cs f w cur str hf hw hcur hne
    have ht : Int.tmod cur 8 = cur % 8 :=
      Int.tmod_eq_emod hcur (by norm_num)
    refine ⟨cur + 8 - cur % 8,
      (min (cur + 8 - cur % 8) (f + w) - max cur f).toNat, ?_, ?_, ?_, ?_, ?_⟩
    · rw [displayLineFillAux, if_neg (fun h => hne h.symm), if_pos rfl]
      simp only [ht, tab_width]
    · omega
    · omega
    · omega
    · rw [Finset.Ico_inter_Ico, Int.card_Ico]
  · decide

/-- Witness for C1: a tab at current column 1 with window `[0, 10)`
advances to column 8 and emits the intersection of the span `[1, 8)` with
the window. -/
theorem tab_expansion_witness :
    ∃ n k, displayLineFillAux 0 10 ('\t' :: ['b']) 1 ['a'] =
        displayLineFillAux 0 10 ['b'] n (['a'] ++ List.replicate k ' ') ∧
      n % 8 = 0 ∧ (1 : Int) < n ∧ n ≤ 1 + 8 ∧
      k = ((Finset.Ico (1 : Int) n) ∩ (Finset.Ico (0 : Int) (0 + 10))).card :=
  tab_expansion.1 ['b'] 0 10 1 ['a'] (by norm_num) (by norm_num) (by norm_num)
    (by norm_num)

lemma displayLineFillAux_length_le (f w : Int) (hw : 0 ≤ w) :
    ∀ (ln : List Char) (cur : Int) (str : List Char),
      0 ≤ cur → (str.length : Int) ≤ cur →
      (str.length : Int) ≤ max 0 (cur - f) → (str.length : Int) ≤ w →
      ((displayLineFillAux f w ln cur str).length : Int) ≤ w := by
  intro ln
  induction ln with
  | nil =>
    intro cur str _ _ _ h4
    simpa [displayLineFillAux] using h4
  | cons c cs ih =>
    intro cur str hcur h2 h3 h4
    rw [displayLineFillAux]
    split
    · exact h4
    · rename_i hne
      split
      · rename_i hc
        have ht : Int.tmod cur 8 = cur % 8 :=
          Int.tmod_eq_emod hcur (by norm_num)
        refine ih _ _ ?_ ?_ ?_ ?_ <;>
          · try simp only [List.length_append, List.length_replicate, tab_width,
              ht, Nat.cast_add]
            omega
      · split
        · refine ih _ _ ?_ ?_ ?_ ?_ <;>
            · try simp only [List.length_append, List.length_singleton,
                Nat.cast_add, Nat.cast_one]
              omega
        · refine ih _ _ ?_ ?_ ?_ ?_ <;> omega

lemma displayLineFillAux_no_tab (w : Int) :
    ∀ (ln : List Char) (cur : Int) (str : List Char),
      (∀ c ∈ ln, c ≠ '\t') → 0 ≤ cur → (str.length : Int) ≤ w →
      displayLineFillAux 0 w ln cur str =
        str ++ ln.take (w - str.length).toNat := by
  intro ln
  induction ln with
  | nil =>
    intro cur str _ _ _
    simp [displayLineFillAux]
  | cons c cs ih =>
    intro cur str htab hcur hlen
    rw [displayLineFillAux]
    split
    · rename_i heq
      have h0 : (w - (str.length : Int)).toNat = 0 := by omega
      rw [h0, List.take_zero, List.append_nil]
    · rename_i hne
      split
      · rename_i hc
        exact absurd hc (htab c (List.mem_cons_self c cs))
      · rw [ih (cur + 1) (str ++ [c])
          (fun x hx => htab x (List.mem_cons_of_mem c hx)) (by omega)
          (by simp only [List.length_append, List.length_singleton,
                Nat.cast_add, Nat.cast_one]
              omega)]
        have h1 : (w - ((str ++ [c]).length : Int)).toNat + 1 =
            (w - (str.length : Int)).toNat := by
          simp only [List.length_append, List.length_singleton,
            Nat.cast_add, Nat.cast_one]
          omega
        rw [← h1, List.take_succ_cons, List.append_assoc, List.singleton_append]

/-- C5: the renderer emits at most `w` cells for any line, first visible
column and width `w ≥ 0`; a tab-free line rendered from column 0 is
truncated to the first `w` cells, hence returned whole when its length is
at most `w` and cut to exactly `w` cells when longer. -/
theorem render_width_contract :
    (∀ (ln : List Char) (f w : Int), 0 ≤ w →
        ((display_line_fill ln f w).length : Int) ≤ w) ∧
    (∀ (ln : List Char) (w : Int), 0 ≤ w → (∀ c ∈ ln, c ≠ '\t') →
        display_line_fill ln 0 w = ln.take w.toNat) ∧
    (∀ (ln : List Char) (w : Int), (∀ c ∈ ln, c ≠ '\t') →
        (ln.length : Int) ≤ w → display_line_fill ln 0 w = ln) ∧
    (∀ (ln : List Char) (w : Int), 0 ≤ w → (∀ c ∈ ln, c ≠ '\t') →
        w < (ln.length : Int) →
        ((display_line_fill ln 0 w).length : Int) = w) := by
  refine ⟨?_, ?_, ?_, ?_⟩
  · intro ln f w hw
    refine displayLineFillAux_length_le f w hw ln 0 [] le_rfl (by simp)
      (by simp) (by simpa using hw)
  · intro ln w hw htab
    have h := displayLineFillAux_no_tab w ln 0 [] htab le_rfl (by simpa using hw)
    simpa using h
  · intro ln w htab hlw
    have hw : 0 ≤ w := le_trans (Int.natCast_nonneg ln.length) hlw
    have h := displayLineFillAux_no_tab w ln 0 [] htab le_rfl (by simpa using hw)
    rw [display_line_fill, h]
    simp only [List.length_nil, Nat.cast_zero, sub_zero, List.nil_append]
    exact List.take_of_length_le (by omega)
  · intro ln w hw htab hwl
    have h := displayLineFillAux_no_tab w ln 0 [] htab le_rfl (by simpa using hw)
    have h2 : display_line_fill ln 0 w = ln.take w.toNat := by simpa using h
    rw [h2, List.length_take]
    omega

/-- Witness for C5: concrete checks of the length bound, the tab-free
truncation, the short-line identity and the exact-width cut. -/
theorem render_width_contract_witness :
    ((display_line_fill ['a', '\t', 'b'] 0 2).length : Int) ≤ 2 ∧
    display_line_fill ['x', 'y', 'z'] 0 2 = ['x', 'y', 'z'].take (2 : Int).toNat ∧
    display_line_fill ['x', 'y'] 0 5 = ['x', 'y'] ∧
    ((display_line_fill ['x', 'y', 'z'] 0 2).length : Int) = 2 :=
  ⟨render_width_contract.1 ['a', '\t', 'b'] 0 2 (by norm_num),
   render_width_contract.2.1 ['x', 'y', 'z'] 2 (by norm_num) (by decide),
   render_width_contract.2.2.1 ['x', 'y'] 5 (by decide) (by norm_num),
   render_width_contract.2.2.2 ['x', 'y', 'z'] 2 (by norm_num) (by decide)
     (by norm_num)⟩

/-- C7: the terminal cursor is set invisible exactly when the expanded
display cursor falls outside the viewport: visibility is false iff the
cursor column is left of `scroll.col` or at/past `scroll.col + width`, or
the cursor row is above `scroll.row` or at/past `scroll.row + rows`. -/
theorem cursor_visibility_iff_outside (cursor scroll window_size : Coord) :
    draw_text_cursor_visible cursor scroll window_size = false ↔
      (cursor.col < scroll.col ∨ cursor.col ≥ scroll.col + window_size.col ∨
       cursor.row < scroll.row ∨ cursor.row ≥ scroll.row + window_size.row) := by
  simp only [draw_text_cursor_visible, Bool.and_eq_false_iff,
    decide_eq_false_iff_not, not_le, not_lt, ge_iff_le]
  omega

/-- C9: the mode line shows the clean marker exactly when the buffer's
current content is structurally equal to the last-saved content, and the
modified marker otherwise. -/
theorem dirty_mark_iff_content_changed (buffer : FileBuffer) :
    (dirty_mark buffer = "--" ↔ buffer.content = buffer.file_content) ∧
    (dirty_mark buffer = "**" ↔ buffer.content ≠ buffer.file_content) := by
  by_cases h : buffer.content = buffer.file_content <;>
    simp [dirty_mark, h]

/-- C8: the dispatcher is deterministic and history-free beyond its
pending-sequence buffer: any two input histories that leave the dispatcher
with the same pending sequence give the same result on the next key
event. -/
theorem handle_key_deterministic (bindings : KeyMap)
    (h1 h2 : List KeyEvent) (e : KeyEvent)
    (hsame : (feedKeys bindings [] h1).1 = (feedKeys bindings [] h2).1) :
    handle_key bindings (feedKeys bindings [] h1).1 e.res e.key =
      handle_key bindings (feedKeys bindings [] h2).1 e.res e.key := by
  rw [hsame]

/-- Witness for C8: under an empty binding table, the histories "plain a"
and "plain b" both resolve and leave an empty pending sequence, and the
next key is then handled identically. -/
theorem handle_key_deterministic_witness :
    handle_key [] (feedKeys [] [] [⟨statusOK, 'a'⟩]).1 statusOK 'c' =
      handle_key [] (feedKeys [] [] [⟨statusOK, 'b'⟩]).1 statusOK 'c' :=
  handle_key_deterministic [] [⟨statusOK, 'a'⟩] [⟨statusOK, 'b'⟩]
    ⟨statusOK, 'c'⟩ (by decide)

/-- C4: when the accumulated sequence is unbound, a single plain printable
character is inserted literally with the pending sequence cleared, while a
multi-key unbound sequence or a single unbound control or error key clears
the pending sequence and reports an unbound key sequence. -/
theorem handle_key_unbound (bindings : KeyMap) :
    (∀ (res : Int) (key : Char),
        lookupChord bindings [⟨res, key⟩] = none → res = statusOK →
        iscntrl key = false →
        handle_key bindings [] res key = ([], KeyAction.insertChar key)) ∧
    (∀ (seq : List KeyEvent) (res : Int) (key : Char),
        lookupChord bindings (seq ++ [⟨res, key⟩]) = none →
        (seq ≠ [] ∨ res ≠ statusOK ∨ iscntrl key = true) →
        handle_key bindings seq res key = ([], KeyAction.unboundMessage)) := by
  constructor
  · exact fun res key h1 h2 h3 => handle_key_single_printable bindings res key h1 h2 h3
  · intro seq res key hlook hcase
    simp only [handle_key, hlook]
    have hlen : ¬((seq ++ [(⟨res, key⟩ : KeyEvent)]).length = 1 ∧
        res = statusOK ∧ iscntrl key = false) := by
      rcases hcase with h | h | h
      · intro hx
        have h0 := hx.1
        simp [List.length_append] at h0
        exact h h0
      · exact fun hx => h hx.2.1
      · intro hx
        rw [hx.2.2] at h
        exact Bool.false_ne_true h
    split
    · rename_i hc
      exact absurd hc hlen
    · rfl

/-- Witness for C4: under an empty binding table, the unbound plain
character q is inserted literally, and an unbound two-key sequence
(control-X then q) yields the unbound-sequence report. -/
theorem handle_key_unbound_witness :
    handle_key [] [] statusOK 'q' = ([], KeyAction.insertChar 'q') ∧
    handle_key [] [ctrlKey 'X'] statusOK 'q' =
      ([], KeyAction.unboundMessage) :=
  ⟨(handle_key_unbound []).1 statusOK 'q' (by decide) rfl (by decide),
   (handle_key_unbound []).2 [ctrlKey 'X'] statusOK 'q' (by decide)
     (Or.inl (by decide))⟩

lemma feedKeys_bound_chord (bindings : KeyMap) (c : List KeyEvent) (cmd : String)
    (hc0 : c ≠ []) (hc : lookupChord bindings c = some cmd) (hne : cmd ≠ "")
    (hpend : ∀ p, p ≠ [] → p <+: c → p ≠ c → lookupChord bindings p = some "") :
    feedKeys bindings [] c =
      ([], List.replicate (c.length - 1) KeyAction.keepState ++
        [KeyAction.command cmd]) := by
  suffices h : ∀ (es p : List KeyEvent), p ++ es = c → es ≠ [] →
      feedKeys bindings p es =
        ([], List.replicate (es.length - 1) KeyAction.keepState ++
          [KeyAction.command cmd]) by
    exact h c [] rfl hc0
  intro es
  induction es with
  | nil =>
    intro p _ hne'
    exact absurd rfl hne'
  | cons e es ih =>
    intro p hpc _
    rcases es with _ | ⟨e2, es2⟩
    · have hceq : p ++ [(⟨e.res, e.key⟩ : KeyEvent)] = c := hpc
      have hk : handle_key bindings p e.res e.key = ([], KeyAction.command cmd) := by
        simp only [handle_key, hceq, hc]
        simp [hne]
      simp only [feedKeys, hk]
      simp
    · have hp1 : p ++ [e] ≠ [] := by simp
      have hp2 : p ++ [e] <+: c :=
        ⟨e2 :: es2, by simpa [List.append_assoc] using hpc⟩
      have hp3 : p ++ [e] ≠ c := by
        intro hcon
        have l1 := congrArg List.length hpc
        have l2 := congrArg List.length hcon
        simp at l1 l2
        omega
      have hcp : lookupChord bindings (p ++ [(⟨e.res, e.key⟩ : KeyEvent)]) =
          some "" := hpend (p ++ [e]) hp1 hp2 hp3
      have hk : handle_key bindings p e.res e.key =
          (p ++ [(⟨e.res, e.key⟩ : KeyEvent)], KeyAction.keepState) := by
        simp only [handle_key, hcp]
        simp
      have ihx2 : feedKeys bindings (p ++ [(⟨e.res, e.key⟩ : KeyEvent)])
          (e2 :: es2) =
          ([], List.replicate ((e2 :: es2).length - 1) KeyAction.keepState ++
            [KeyAction.command cmd]) :=
        ih (p ++ [e]) (by simpa [List.append_assoc] using hpc) (by simp)
      rw [feedKeys]
      simp only [hk, ihx2]
      simp [List.replicate_succ]

/-- C3: feeding any chord bound in the emacs key binding table into the
dispatcher, one key event at a time from an empty pending sequence, emits
nothing on the earlier events of the chord and exactly one command, the
chord's bound name, on the final event, leaving the pending sequence
empty. -/
theorem chord_dispatch (c : List KeyEvent) (cmd : String)
    (hbound : lookupChord key_map_emacs c = some cmd) (hne : cmd ≠ "") :
    feedKeys key_map_emacs [] c =
      ([], List.replicate (c.length - 1) KeyAction.keepState ++
        [KeyAction.command cmd]) := by
  have hmem : ((c, cmd) : List KeyEvent × String) ∈ key_map_emacs := by
    unfold lookupChord at hbound
    cases hfil : (key_map_emacs.filter fun b => decide (b.1 = c)).getLast? with
    | none =>
      simp only [hfil] at hbound
      split at hbound
      · exact absurd (Option.some.inj hbound).symm hne
      · exact absurd hbound (by simp)
    | some b =>
      simp only [hfil] at hbound
      have hb2 : b.2 = cmd := Option.some.inj hbound
      have hbm := List.mem_of_mem_getLast? hfil
      rw [List.mem_filter] at hbm
      have hb1 : b.1 = c := of_decide_eq_true hbm.2
      have hbc : ((c, cmd) : List KeyEvent × String) = b := by
        rw [← hb1, ← hb2]
      rw [hbc]
      exact hbm.1
  have hc0 : c ≠ [] := by
    have hx : ∀ x ∈ key_map_emacs, x.1 ≠ ([] : List KeyEvent) := by decide
    exact hx (c, cmd) hmem
  have hpf : ∀ x ∈ key_map_emacs, ∀ q ∈ key_map_emacs,
      ¬(q.1 <+: x.1 ∧ q.1 ≠ x.1) := by decide
  refine feedKeys_bound_chord key_map_emacs c cmd hc0 hbound hne ?_
  intro p hp0 hppre hpc
  have hfil : (key_map_emacs.filter fun b => decide (b.1 = p)) = [] := by
    rw [List.filter_eq_nil_iff]
    intro q hq
    simp only [decide_eq_true_eq]
    intro hqp
    exact hpf (c, cmd) hmem q hq
      ⟨by rw [hqp]; exact hppre, by rw [hqp]; exact hpc⟩
  have hany : (key_map_emacs.any fun b =>
      decide (p ≠ [] ∧ p <+: b.1 ∧ p ≠ b.1)) = true := by
    rw [List.any_eq_true]
    exact ⟨(c, cmd), hmem, decide_eq_true ⟨hp0, hppre, hpc⟩⟩
  unfold lookupChord
  rw [hfil]
  simp only [List.getLast?_nil]
  rw [hany]
  simp

/-- Witness for C3: the two-key chord control-X control-C emits nothing on
its first event and the quit command on its second, leaving the pending
sequence empty. -/
theorem chord_dispatch_witness :
    feedKeys key_map_emacs [] [ctrlKey 'X', ctrlKey 'C'] =
      ([], [KeyAction.keepState, KeyAction.command "quit"]) := by
  have h := chord_dispatch [ctrlKey 'X', ctrlKey 'C'] "quit" (by decide) (by decide)
  simpa using h

/-- C10: on the single-unbound-printable path, the state handed to
character insertion is the input state with exactly one appended notice
"adding character: " followed by the key's name; the buffer of that handed
state is unchanged, so beyond the document edit done by the insertion
itself only the message log differs. -/
theorem insert_char_frame
    (evalCommand : AppState → String → Option AppState)
    (evalInsertChar : AppState → Char → Option AppState)
    (bindings : KeyMap) (st : AppState) (res : Int) (key : Char)
    (hlook : lookupChord bindings [⟨res, key⟩] = none)
    (hres : res = statusOK) (hkey : iscntrl key = false) :
    applyAction evalCommand evalInsertChar st
        (handle_key bindings [] res key).2 =
      evalInsertChar
        { st with messages :=
            st.messages ++ ["adding character: " ++ key_name key] } key ∧
    ({ st with messages :=
        st.messages ++ ["adding character: " ++ key_name key] } : AppState).buffer
      = st.buffer := by
  rw [handle_key_single_printable bindings res key hlook hres hkey]
  exact ⟨rfl, rfl⟩

/-- Witness for C10: inserting the unbound plain character q hands the
insertion evaluator the input state with the "adding character: q" notice
appended and the buffer untouched. -/
theorem insert_char_frame_witness :
    (applyAction (fun s _ => some s) (fun s _ => some s)
        ⟨⟨[], [], "f", ⟨0, 0⟩, ⟨0, 0⟩, none⟩, []⟩
        (handle_key [] [] statusOK 'q').2 =
      (fun (s : AppState) (_ : Char) => some s)
        { (⟨⟨[], [], "f", ⟨0, 0⟩, ⟨0, 0⟩, none⟩, []⟩ : AppState) with
            messages := [] ++ ["adding character: " ++ key_name 'q'] } 'q') ∧
    ({ (⟨⟨[], [], "f", ⟨0, 0⟩, ⟨0, 0⟩, none⟩, []⟩ : AppState) with
        messages := [] ++ ["adding character: " ++ key_name 'q'] } : AppState).buffer
      = (⟨⟨[], [], "f", ⟨0, 0⟩, ⟨0, 0⟩, none⟩, []⟩ : AppState).buffer :=
  insert_char_frame (fun s _ => some s) (fun s _ => some s) []
    ⟨⟨[], [], "f", ⟨0, 0⟩, ⟨0, 0⟩, none⟩, []⟩ statusOK 'q' (by decide) rfl
    (by decide)

lemma getD_rep (b : Bool) (a i : Nat) :
    (List.replicate a b).getD i false = if i < a then b else false := by
  by_cases h : i < a
  · rw [if_pos h, List.getD_eq_getElem _ _ (by simpa using h),
      List.getElem_replicate]
  · rw [if_neg h, List.getD_eq_default _ _ (by simpa using h)]

lemma flagFTF (a b c i : Nat) :
    ((List.replicate a false ++
        (List.replicate b true ++ List.replicate c false)).getD i false = true) ↔
      (a ≤ i ∧ i < a + b) := by
  by_cases h1 : i < a
  · rw [List.getD_append _ _ _ _ (by simpa using h1), getD_rep]
    simp only [ite_self, Bool.false_eq_true, false_iff]
    omega
  · rw [List.getD_append_right _ _ _ _ (by simpa using not_lt.mp h1)]
    simp only [List.length_replicate]
    by_cases h2 : i - a < b
    · rw [List.getD_append _ _ _ _ (by simpa using h2), getD_rep, if_pos h2]
      simp only [eq_self_iff_true, true_iff]
      omega
    · rw [List.getD_append_right _ _ _ _ (by simpa using not_lt.mp h2), getD_rep]
      simp only [ite_self, Bool.false_eq_true, false_iff]
      omega

lemma flagFT (a b i : Nat) :
    ((List.replicate a false ++ List.replicate b true).getD i false = true) ↔
      (a ≤ i ∧ i < a + b) := by
  by_cases h1 : i < a
  · rw [List.getD_append _ _ _ _ (by simpa using h1), getD_rep]
    simp only [ite_self, Bool.false_eq_true, false_iff]
    omega
  · rw [List.getD_append_right _ _ _ _ (by simpa using not_lt.mp h1)]
    simp only [List.length_replicate, getD_rep]
    by_cases h2 : i - a < b
    · rw [if_pos h2]
      simp only [eq_self_iff_true, true_iff]
      omega
    · rw [if_neg h2]
      simp only [Bool.false_eq_true, false_iff]
      omega

lemma flagTF (a b i : Nat) :
    ((List.replicate a true ++ List.replicate b false).getD i false = true) ↔
      i < a := by
  by_cases h1 : i < a
  · rw [List.getD_append _ _ _ _ (by simpa using h1), getD_rep, if_pos h1]
    simp only [eq_self_iff_true, true_iff]
    omega
  · rw [List.getD_append_right _ _ _ _ (by simpa using not_lt.mp h1), getD_rep]
    simp only [List.length_replicate, ite_self, Bool.false_eq_true, false_iff]
    omega

lemma flagT (a i : Nat) :
    ((List.replicate a true).getD i false = true) ↔ i < a := by
  rw [getD_rep]
  by_cases h : i < a
  · simp [h]
  · simp [h]

lemma flagF (a i : Nat) :
    (List.replicate a false).getD i false = false := by
  rw [getD_rep, ite_self]

lemma map_snd_plainCells (s : List Char) :
    (plainCells s).map Prod.snd = List.replicate s.length false := by
  simp only [plainCells, List.map_map]
  rw [show (Prod.snd ∘ fun c : Char => (c, false)) = fun _ => false from rfl,
    List.map_const']

lemma map_snd_hlCells (s : List Char) :
    (hlCells s).map Prod.snd = List.replicate s.length true := by
  simp only [hlCells, List.map_map]
  rw [show (Prod.snd ∘ fun c : Char => (c, true)) = fun _ => true from rfl,
    List.map_const']

/-- C2: with an active selection, normalized endpoints translated into
screen rows and columns within the rendered row, a drawn row is
highlighted exactly per the decision table; the whole-row cases extend
through the trailing blank fill up to the viewport width; with no active
selection no cell is highlighted. -/
theorem selection_highlight (starts ends : Coord) (r : Int) (str : List Char)
    (width : Int)
    (h1 : 0 ≤ starts.col) (h2 : 0 ≤ ends.col)
    (h3 : starts.row ≤ ends.row)
    (h4 : starts.row = ends.row → starts.col ≤ ends.col)
    (h5 : starts.col ≤ (str.length : Int)) (h6 : ends.col ≤ (str.length : Int))
    (h7 : (str.length : Int) ≤ width) :
    (∀ i : Nat, i < (drawRowCells true starts ends r str width).length →
        (((drawRowCells true starts ends r str width).map Prod.snd).getD i false
            = true ↔
          ((starts.row = ends.row ∧ starts.row = r ∧
              starts.col ≤ (i : Int) ∧ (i : Int) < ends.col) ∨
           (starts.row = r ∧ starts.row < ends.row ∧ starts.col ≤ (i : Int)) ∨
           (ends.row = r ∧ starts.row < ends.row ∧ (i : Int) < ends.col) ∨
           (starts.row < r ∧ r < ends.row)))) ∧
    ((drawRowCells true starts ends r str width).length =
        if (starts.row = r ∧ starts.row < ends.row) ∨
            (starts.row < r ∧ r < ends.row)
        then width.toNat else str.length) ∧
    (∀ i : Nat,
        ((drawRowCells false starts ends r str width).map Prod.snd).getD i false
          = false) := by
  have hnosel : ∀ i : Nat,
      ((drawRowCells false starts ends r str width).map Prod.snd).getD i false
        = false := by
    intro i
    rw [show drawRowCells false starts ends r str width = plainCells str
        from rfl]
    rw [map_snd_plainCells, flagF]
  have main : (∀ i : Nat, i < (drawRowCells true starts ends r str width).length →
      (((drawRowCells true starts ends r str width).map Prod.snd).getD i false
          = true ↔
        ((starts.row = ends.row ∧ starts.row = r ∧
            starts.col ≤ (i : Int) ∧ (i : Int) < ends.col) ∨
         (starts.row = r ∧ starts.row < ends.row ∧ starts.col ≤ (i : Int)) ∨
         (ends.row = r ∧ starts.row < ends.row ∧ (i : Int) < ends.col) ∨
         (starts.row < r ∧ r < ends.row)))) ∧
      ((drawRowCells true starts ends r str width).length =
        if (starts.row = r ∧ starts.row < ends.row) ∨
            (starts.row < r ∧ r < ends.row)
        then width.toNat else str.length) := by
    by_cases hA : starts.row = ends.row ∧ starts.row = r
    · have hsc : starts.col ≤ ends.col := h4 hA.1
      have hcells : drawRowCells true starts ends r str width =
          plainCells (str.take starts.col.toNat)
            ++ hlCells ((str.drop starts.col.toNat).take
                (ends.col - starts.col).toNat)
            ++ plainCells (str.drop ends.col.toNat) := by
        simp only [drawRowCells]
        rw [if_pos hA]
      have hlen : (drawRowCells true starts ends r str width).length =
          str.length := by
        rw [hcells]
        simp only [List.length_append, plainCells, hlCells, List.length_map,
          List.length_take, List.length_drop]
        omega
      constructor
      · intro i hi
        rw [hlen] at hi
        rw [hcells]
        simp only [List.map_append, map_snd_plainCells, map_snd_hlCells,
          List.length_take, List.length_drop, List.append_assoc]
        rw [flagFTF]
        omega
      · rw [hlen, if_neg (by omega)]
    · by_cases hB : starts.row = r
      · have hcells : drawRowCells true starts ends r str width =
            plainCells (str.take starts.col.toNat)
              ++ hlCells (str.drop starts.col.toNat)
              ++ hlCells (List.replicate (width.toNat - str.length) ' ') := by
          simp only [drawRowCells]
          rw [if_neg hA, if_pos hB]
        have hlen : (drawRowCells true starts ends r str width).length =
            width.toNat := by
          rw [hcells]
          simp only [List.length_append, plainCells, hlCells, List.length_map,
            List.length_take, List.length_drop, List.length_replicate]
          omega
        constructor
        · intro i hi
          rw [hlen] at hi
          rw [hcells]
          simp only [List.map_append, map_snd_plainCells, map_snd_hlCells,
            List.length_take, List.length_drop, List.length_replicate,
            List.append_assoc]
          rw [← List.replicate_add, flagFT]
          omega
        · rw [hlen, if_pos (Or.inl ⟨hB, by omega⟩)]
      · by_cases hC : ends.row = r
        · have hcells : drawRowCells true starts ends r str width =
              hlCells (str.take ends.col.toNat)
                ++ plainCells (str.drop ends.col.toNat) := by
            simp only [drawRowCells]
            rw [if_neg hA, if_neg hB, if_pos hC]
          have hlen : (drawRowCells true starts ends r str width).length =
              str.length := by
            rw [hcells]
            simp only [List.length_append, plainCells, hlCells, List.length_map,
              List.length_take, List.length_drop]
            omega
          constructor
          · intro i hi
            rw [hlen] at hi
            rw [hcells]
            simp only [List.map_append, map_snd_plainCells, map_snd_hlCells,
              List.length_take, List.length_drop]
            rw [flagTF]
            omega
          · rw [hlen, if_neg (by omega)]
        · by_cases hD : starts.row < r ∧ ends.row > r
          · have hcells : drawRowCells true starts ends r str width =
                hlCells str
                  ++ hlCells (List.replicate (width.toNat - str.length) ' ') := by
              simp only [drawRowCells]
              rw [if_neg hA, if_neg hB, if_neg hC, if_pos hD]
            have hlen : (drawRowCells true starts ends r str width).length =
                width.toNat := by
              rw [hcells]
              simp only [List.length_append, plainCells, hlCells,
                List.length_map, List.length_replicate]
              omega
            constructor
            · intro i hi
              rw [hlen] at hi
              rw [hcells]
              simp only [List.map_append, map_snd_plainCells, map_snd_hlCells,
                List.length_replicate]
              rw [← List.replicate_add, flagT]
              omega
            · rw [hlen, if_pos (Or.inr (by omega))]
          · have hcells : drawRowCells true starts ends r str width =
                plainCells str := by
              simp only [drawRowCells]
              rw [if_neg hA, if_neg hB, if_neg hC, if_neg hD]
            have hlen : (drawRowCells true starts ends r str width).length =
                str.length := by
              rw [hcells]
              simp only [plainCells, List.length_map]
            constructor
            · intro i hi
              rw [hcells, map_snd_plainCells, flagF]
              simp only [Bool.false_eq_true, false_iff]
              omega
            · rw [hlen, if_neg (by omega)]
  exact ⟨main.1, main.2, hnosel⟩

/-- Witness for C2: the spec's example, a selection from document row 0
column 2 to row 2 column 3 with the middle screen row 1 fully
highlighted: its first cell carries the highlight flag. -/
theorem selection_highlight_witness :
    ((drawRowCells true ⟨0, 2⟩ ⟨2, 3⟩ 1 ['a', 'b', 'c', 'd'] 6).map
        Prod.snd).getD 0 false = true := by
  have h := selection_highlight ⟨0, 2⟩ ⟨2, 3⟩ 1 ['a', 'b', 'c', 'd'] 6
    (by norm_num) (by norm_num) (by norm_num)
    (fun hx => absurd hx (by norm_num)) (by norm_num) (by norm_num) (by norm_num)
  exact (h.1 0 (by decide)).mpr (Or.inr (Or.inr (Or.inr ⟨by norm_num, by norm_num⟩)))

/-- C6: the drawn document line range is `[scroll.row, scroll.row + rows)`
intersected with `[0, line count)`: the number of drawn lines is the
clamped count, every drawn line is the document line at `scroll.row`
offset by its screen position without ever indexing past the document
end, and a scroll at or beyond the line count draws nothing. -/
theorem draw_text_clamped (content : List (List Char)) (scrollRow sizeRow : Int)
    (hs : 0 ≤ scrollRow) (hr : 0 ≤ sizeRow) :
    ((draw_text_lines content scrollRow sizeRow).length =
        min sizeRow.toNat (content.length - scrollRow.toNat)) ∧
    (∀ i : Nat, i < (draw_text_lines content scrollRow sizeRow).length →
        scrollRow.toNat + i < content.length ∧
        (draw_text_lines content scrollRow sizeRow).getD i [] =
          content.getD (scrollRow.toNat + i) []) ∧
    ((content.length : Int) ≤ scrollRow →
        draw_text_lines content scrollRow sizeRow = []) := by
  refine ⟨?_, ?_, ?_⟩
  · simp only [draw_text_lines, List.length_take, List.length_drop]
    omega
  · intro i hi
    simp only [draw_text_lines, List.length_take, List.length_drop] at hi
    have hidx : scrollRow.toNat + i < content.length := by omega
    refine ⟨hidx, ?_⟩
    simp only [draw_text_lines]
    have hlt : i < ((content.drop
        (min scrollRow (content.length : Int)).toNat).take
          (min (sizeRow + scrollRow) (content.length : Int) -
            min scrollRow (content.length : Int)).toNat).length := by
      simp only [List.length_take, List.length_drop]
      omega
    rw [List.getD_eq_getElem _ _ hlt, List.getD_eq_getElem _ _ hidx,
      List.getElem_take, List.getElem_drop]
    have heq : (min scrollRow (content.length : Int)).toNat + i =
        scrollRow.toNat + i := by omega
    simp only [heq]
  · intro hle
    simp only [draw_text_lines]
    have h0 : (min (sizeRow + scrollRow) (content.length : Int) -
        min scrollRow (content.length : Int)).toNat = 0 := by omega
    rw [h0, List.take_zero]

/-- Witness for C6: a three-line document scrolled to row 1 with five
visible rows draws the clamped number of lines, here two. -/
theorem draw_text_clamped_witness :
    (draw_text_lines [['a'], ['b'], ['c']] 1 5).length =
      min (5 : Int).toNat ([['a'], ['b'], ['c']].length - (1 : Int).toNat) :=
  (draw_text_clamped [['a'], ['b'], ['c']] 1 5 (by norm_num) (by norm_num)).1

end Ewig
